import Mathlib

/-!
Verification of the structured-document interchange pipeline of
upbound/function-claude against its specification.

The embedding models Go strings as `List Char` (`Str`), protobuf
`structpb.Struct` documents as association lists of JSON-like values
(`JVal`/`Doc`), and Go's `map[string]*fnv1.Resource` as an association
list whose order is a modelling artifact (Go maps are unordered; all
statements about maps are insertion-order independent or note the
canonical order they use).

The serializer `ComposedToYAML` is translated from the sorted variant
(src/unnamed/part_006, lines 254-286); the resolver `ComposedFromYAML`
from src/fn.go lines 274-296 (the variant that skips empty segments).
The external libraries the source calls (protojson, sigs.k8s.io/yaml,
tidwall/sjson, tidwall/gjson) are modelled: the text codec
(protojson.Marshal composed with yaml.JSONToYAML, and yaml.YAMLToJSON
composed with protojson.Unmarshal) is abstracted as `enc`/`dec`
parameters in the universal theorems, and instantiated with the
concrete model codec `modelEnc`/`modelDec` (defined below) in the
concrete ones.
-/

/-- A Go string, modelled as its list of characters (Go compares and
splits strings bytewise; UTF-8 is order-isomorphic to code points). -/
abbrev Str := List Char

/-- Shorthand turning a Lean string literal into the `Str` model. -/
def txt (s : String) : Str := s.toList

/-- A JSON value as `structpb.Value` represents one: null, boolean,
number (restricted to integers in this model; no claim exercises
non-integral numbers), string, array, or object. Objects and the
top-level document are association lists in insertion order. -/
inductive JVal where
  | null
  | boolean (b : Bool)
  | num (n : Int)
  | str (s : Str)
  | arr (xs : List JVal)
  | obj (fields : List (Str × JVal))

/-- A `structpb.Struct`: the top-level object of one resource manifest. -/
abbrev Doc := List (Str × JVal)

/-- Association-list lookup: the value at the first occurrence of a key
(protojson documents carry unique keys, so first = only). -/
def lookupA {α : Type} : List (Str × α) → Str → Option α
  | [], _ => none
  | p :: rest, k => if p.1 = k then some p.2 else lookupA rest k

/-- Association-list update: replace the value at the first occurrence
of the key, or append the binding at the end when the key is absent.
This is how both sjson's `SetBytes` (on a JSON object) and a Go map
assignment behave observationally. -/
def putA {α : Type} : List (Str × α) → Str → α → List (Str × α)
  | [], k, v => [(k, v)]
  | p :: rest, k, v => if p.1 = k then (k, v) :: rest else p :: putA rest k v

/-- The fields of a JSON value when it is an object; an empty object
otherwise (sjson replaces a non-object intermediate on the path it
sets with a fresh object). -/
def asObj : JVal → List (Str × JVal)
  | .obj fields => fields
  | _ => []

/-- The three components of the identity-marker path
`metadata.annotations.upbound\.io/name` used by sjson and gjson. -/
def metaKey : Str := txt "metadata"

/-- Second component of the identity-marker path. -/
def annKey : Str := txt "annotations"

/-- Leaf key of the identity-marker path. -/
def markKey : Str := txt "upbound.io/name"

/-- Models `sjson.SetBytes(jocd, "metadata.annotations.upbound\.io/name", name)`
from ComposedToYAML: force the nested path into objects and set the leaf
to the string `k`, keeping every other field. -/
def setName (d : Doc) (k : Str) : Doc :=
  let meta := asObj ((lookupA d metaKey).getD (JVal.obj []))
  let ann := asObj ((lookupA meta annKey).getD (JVal.obj []))
  putA d metaKey
    (JVal.obj (putA meta annKey
      (JVal.obj (putA ann markKey (JVal.str k)))))

/-- Minimal JSON escaping for the compact rendering `jShow` (only used
by the gjson stringification fallback, never on the claims' inputs). -/
def jEsc : Str → Str
  | [] => []
  | '"' :: rest => '\\' :: '"' :: jEsc rest
  | '\\' :: rest => '\\' :: '\\' :: jEsc rest
  | '\n' :: rest => '\\' :: 'n' :: jEsc rest
  | c :: rest => c :: jEsc rest

/-- Join pre-rendered pieces with commas (helper for `jShow`). -/
def joinComma : List Str → Str
  | [] => []
  | [e] => e
  | e :: rest => e ++ ',' :: joinComma rest

/-- Compact JSON rendering of a value, fuel-bounded on nesting depth.
Models the `Raw` text gjson reports for composite values. -/
def jShow : Nat → JVal → Str
  | 0, _ => []
  | _ + 1, .null => txt "null"
  | _ + 1, .boolean true => txt "true"
  | _ + 1, .boolean false => txt "false"
  | _ + 1, .num n => txt (toString n)
  | _ + 1, .str s => '"' :: (jEsc s ++ ['"'])
  | fuel + 1, .arr xs => '[' :: (joinComma (xs.map (jShow fuel)) ++ [']'])
  | fuel + 1, .obj fs =>
      '{' :: (joinComma (fs.map (fun p => '"' :: (jEsc p.1 ++ '"' :: ':' :: jShow fuel p.2))) ++ ['}'])

/-- Models `gjson.Result.String()`: the string itself for a string, ""
for a missing value or null, "true"/"false" for booleans, the decimal
text for numbers, and the raw JSON for composite values (rendered with
a fixed fuel; no claim reaches a composite identity marker). -/
def gjsonStr : JVal → Str
  | .str s => s
  | .null => []
  | .boolean true => txt "true"
  | .boolean false => txt "false"
  | .num n => txt (toString n)
  | v => jShow 1000 v

/-- Models `gjson.GetBytes(j, "metadata.annotations.upbound\.io/name").String()`
from ComposedFromYAML: follow the path through objects, "" when any
step is missing or not an object. -/
def getName (d : Doc) : Str :=
  match lookupA d metaKey with
  | some (.obj m) =>
      match lookupA m annKey with
      | some (.obj a) =>
          match lookupA a markKey with
          | some v => gjsonStr v
          | none => []
      | _ => []
  | _ => []

/-- Models Go `strings.Split(y, "---")` with the separator the resolver
uses: split at every non-overlapping, leftmost-first occurrence of the
three-character sequence `---`, anywhere in the text. -/
def splitDashes : Str → List Str
  | '-' :: '-' :: '-' :: rest => [] :: splitDashes rest
  | c :: rest => (splitDashes rest).modifyHead (c :: ·)
  | [] => [[]]

/-- Whether the text contains the separator sequence `---`. -/
def hasTriple : Str → Bool
  | '-' :: '-' :: '-' :: _ => true
  | _ :: rest => hasTriple rest
  | [] => false

/-- Rejoin split segments with the separator (the left inverse of
`splitDashes`, used to state what the split preserves). -/
def joinSep : List Str → Str
  | [] => []
  | [e] => e
  | e :: rest => e ++ '-' :: '-' :: '-' :: joinSep rest

/-- One iteration of ComposedFromYAML's loop (src/fn.go lines 278-293):
skip an empty segment; otherwise decode it, propagating the decode
error (the Go code wraps it with "cannot parse YAML"/"cannot parse
JSON"; the wrap text is carried inside the `dec` model), and re-key the
document into the output map under its extracted name. -/
def resolveStep (dec : Str → Except Str Doc) (out : List (Str × Doc)) (doc : Str) :
    Except Str (List (Str × Doc)) :=
  if doc = [] then .ok out
  else
    match dec doc with
    | .error e => .error e
    | .ok d => .ok (putA out (getName d) d)

/-- ComposedFromYAML (src/fn.go lines 274-296): split the reply on
`---`, decode each non-empty segment with the codec `dec` (modelling
yaml.YAMLToJSON followed by protojson.Unmarshal), and build the
name-keyed map, later documents overwriting earlier ones. -/
def ComposedFromYAML (dec : Str → Except Str Doc) (y : Str) :
    Except Str (List (Str × Doc)) :=
  (splitDashes y).foldlM (resolveStep dec) []

/-- ComposedToYAML (src/unnamed/part_006 lines 254-286): sort the
identifiers lexicographically (Go's `sort.StringSlice` is bytewise
ascending), and for each emit `"---\n"` followed by the document with
the identity marker set to its identifier, encoded by the codec `enc`
(modelling protojson.Marshal followed by yaml.JSONToYAML). A lookup
can never miss (the keys come from the map); the model defaults a miss
to the empty document. The variant in src/fn.go lines 246-269 omits
the sort and iterates the Go map directly. -/
def ComposedToYAML (enc : Doc → Str) (cds : List (Str × Doc)) : Str :=
  ((List.insertionSort (fun a b => a ≤ b) (cds.map Prod.fst)).map (fun name =>
    '-' :: '-' :: '-' :: '\n' :: enc (setName ((lookupA cds name).getD []) name))).flatten

/-!
The concrete model codec. `modelEnc` reproduces what
`yaml.JSONToYAML(protojson.Marshal(doc))` emits for the documents this
development evaluates (string scalars and nested string-keyed objects):
block style, two-space indentation, keys sorted at every level (both
protojson and yaml.v2 sort map keys), plain scalars unless quoting is
needed, and a trailing newline. `modelDec` reproduces
`protojson.Unmarshal(yaml.YAMLToJSON(text))` on the texts this
development decodes: leading/blank lines tolerated, a top-level `{`
parsed as (flow) JSON, otherwise a block mapping, and an error whenever
the text is not a single object (protojson rejects any non-object, and
yaml rejects malformed block structure). Branches outside that subset
(arrays of composites, exotic scalars) are best-effort and unused.
-/

/-- Go `unicode.IsSpace` restricted to the ASCII whitespace that occurs
in this development. -/
def isWs (c : Char) : Bool := c = ' ' || c = '\n' || c = '\t' || c = '\r'

/-- Drop leading whitespace. -/
def trimL : Str → Str
  | [] => []
  | c :: rest => if isWs c then trimL rest else c :: rest

/-- Go `strings.TrimSpace`: drop leading and trailing whitespace. -/
def trimStr (s : Str) : Str := ((trimL ((trimL s).reverse)).reverse)

/-- Split a text into lines at every newline. -/
def splitLines : Str → List Str
  | [] => [[]]
  | '\n' :: rest => [] :: splitLines rest
  | c :: rest => (splitLines rest).modifyHead (c :: ·)

/-- Characters yaml.v2 emits unquoted in the scalars this development
uses. -/
def plainChar (c : Char) : Bool :=
  c.isAlphanum || c = '-' || c = '.' || c = '/' || c = '_'

/-- Scalar strings yaml.v2 quotes to keep them strings: empty, special
characters, reserved words, or number-like text. -/
def needsQuote (s : Str) : Bool :=
  s = [] || !(s.all plainChar) ||
    s = txt "true" || s = txt "false" || s = txt "null" || s = txt "yes" ||
    s = txt "no" || s = txt "on" || s = txt "off" || s = txt "~" ||
    s.all (fun c => c.isDigit || c = '.' || c = '-' || c = '+')

/-- Render a string scalar for YAML output: plain, or double-quoted
with JSON escapes. -/
def yamlScalar (s : Str) : Str :=
  if needsQuote s then '"' :: (jEsc s ++ ['"']) else s

/-- `n` spaces of indentation. -/
def indent (n : Nat) : Str := List.replicate n ' '

/-- Render a scalar value on one line. -/
def yamlLeaf : JVal → Str
  | .null => txt "null"
  | .boolean true => txt "true"
  | .boolean false => txt "false"
  | .num n => txt (toString n)
  | .str s => yamlScalar s
  | v => jShow 1000 v

/-- Render the sorted fields of an object as YAML lines at the given
indentation (fuel bounds the total work; line lists are returned in
order). Scalars sit on the key's line; a non-empty object opens a
deeper block; empty composites use flow style, and arrays render each
element on a `- ` line as yaml.v2 does for scalars. -/
def yamlFields : Nat → Nat → List (Str × JVal) → List Str
  | 0, _, _ => []
  | _ + 1, _, [] => []
  | fuel + 1, ind, (k, v) :: rest =>
    (match v with
     | .obj [] => [indent ind ++ yamlScalar k ++ ':' :: ' ' :: txt "\x7b\x7d"]
     | .arr [] => [indent ind ++ yamlScalar k ++ ':' :: ' ' :: txt "[]"]
     | .obj fs =>
         (indent ind ++ yamlScalar k ++ [':']) ::
           yamlFields fuel (ind + 2) (List.insertionSort (fun a b => a.1 ≤ b.1) fs)
     | .arr xs =>
         (indent ind ++ yamlScalar k ++ [':']) ::
           xs.map (fun x => indent ind ++ '-' :: ' ' :: yamlLeaf x)
     | x => [indent ind ++ yamlScalar k ++ ':' :: ' ' :: yamlLeaf x]) ++
    yamlFields fuel ind rest

/-- Join lines with newlines, ending the last line with one as
yaml.Marshal does. -/
def joinNl : List Str → Str
  | [] => []
  | l :: rest => l ++ '\n' :: joinNl rest

/-- The concrete model of `yaml.JSONToYAML(protojson.Marshal(d))`. -/
def modelEnc (d : Doc) : Str :=
  joinNl (yamlFields 1000 0 (List.insertionSort (fun a b => a.1 ≤ b.1) d))

/-- The decode-error text (the Go code wraps the library error; the
claims never inspect the message, only that resolution failed). -/
def perr : Str := txt "cannot parse"

/-- Leading spaces of a line. -/
def leadSpaces : Str → Nat
  | ' ' :: rest => 1 + leadSpaces rest
  | _ => 0

/-- Split a line at its first colon: (text before, text after). -/
def splitColon : Str → Option (Str × Str)
  | [] => none
  | ':' :: rest => some ([], rest)
  | c :: rest => (splitColon rest).map (fun p => (c :: p.1, p.2))

/-- Parse the body of a double-quoted JSON string (the opening quote
already consumed): its contents and the text after tne closing quote. -/
def jsonStrAux : Nat → Str → Except Str (Str × Str)
  | 0, _ => .error perr
  | _ + 1, [] => .error perr
  | _ + 1, '"' :: rest => .ok ([], rest)
  | fuel + 1, '\\' :: rest =>
      (match rest with
       | '"' :: r => (jsonStrAux fuel r).map (fun p => ('"' :: p.1, p.2))
       | '\\' :: r => (jsonStrAux fuel r).map (fun p => ('\\' :: p.1, p.2))
       | 'n' :: r => (jsonStrAux fuel r).map (fun p => ('\n' :: p.1, p.2))
       | 't' :: r => (jsonStrAux fuel r).map (fun p => ('\t' :: p.1, p.2))
       | _ => .error perr)
  | fuel + 1, c :: rest => (jsonStrAux fuel rest).map (fun p => (c :: p.1, p.2))

/-- The numeric value of a run of decimal digits. -/
def natOfDigits (s : Str) : Nat :=
  s.foldl (fun a c => a * 10 + (c.toNat - 48)) 0

/-- Split a text into its leading decimal digits and the rest. -/
def takeDigits : Str → (Str × Str)
  | [] => ([], [])
  | c :: rest =>
      if c.isDigit then
        let p := takeDigits rest
        (c :: p.1, p.2)
      else ([], c :: rest)

mutual

/-- Parse one JSON value in flow syntax, leniently as YAML's flow
parser reads it (yaml.YAMLToJSON parses JSON through the YAML
grammar): returns the value and the unconsumed text. -/
def parseJVal : Nat → Str → Except Str (JVal × Str)
  | 0, _ => .error perr
  | fuel + 1, s =>
    match trimL s with
    | '{' :: rest =>
        (parseJFields fuel rest).map (fun p => (JVal.obj p.1, p.2))
    | '[' :: rest =>
        (parseJItems fuel rest).map (fun p => (JVal.arr p.1, p.2))
    | '"' :: rest =>
        (jsonStrAux (fuel + 1) rest).map (fun p => (JVal.str p.1, p.2))
    | 't' :: 'r' :: 'u' :: 'e' :: r => .ok (.boolean true, r)
    | 'f' :: 'a' :: 'l' :: 's' :: 'e' :: r => .ok (.boolean false, r)
    | 'n' :: 'u' :: 'l' :: 'l' :: r => .ok (.null, r)
    | '-' :: rest =>
        (match takeDigits rest with
         | ([], _) => .error perr
         | (ds, r) => .ok (.num (-(natOfDigits ds : Int)), r))
    | c :: rest =>
        if c.isDigit then
          (match takeDigits (c :: rest) with
           | (ds, r) => .ok (.num (natOfDigits ds : Int), r))
        else .error perr
    | [] => .error perr

/-- Parse the fields of a flow object, positioned right after `{` or
after a comma. -/
def parseJFields : Nat → Str → Except Str (List (Str × JVal) × Str)
  | 0, _ => .error perr
  | fuel + 1, s =>
    match trimL s with
    | '}' :: r => .ok ([], r)
    | '"' :: rest =>
        match jsonStrAux (fuel + 1) rest with
        | .error e => .error e
        | .ok (key, afterKey) =>
          match trimL afterKey with
          | ':' :: afterColon =>
            match parseJVal fuel afterColon with
            | .error e => .error e
            | .ok (v, r) =>
              match trimL r with
              | ',' :: r2 =>
                  (parseJFields fuel r2).map (fun p => ((key, v) :: p.1, p.2))
              | '}' :: r2 => .ok ([(key, v)], r2)
              | _ => .error perr
          | _ => .error perr
    | _ => .error perr

/-- Parse the elements of a flow array, positioned right after `[` or
after a comma. -/
def parseJItems : Nat → Str → Except Str (List JVal × Str)
  | 0, _ => .error perr
  | fuel + 1, s =>
    match trimL s with
    | ']' :: r => .ok ([], r)
    | _ =>
      match parseJVal fuel s with
      | .error e => .error e
      | .ok (v, r) =>
        match trimL r with
        | ',' :: r2 => (parseJItems fuel r2).map (fun p => (v :: p.1, p.2))
        | ']' :: r2 => .ok ([v], r2)
        | _ => .error perr

end

/-- Interpret one trimmed YAML scalar text as the JSON value
yaml.YAMLToJSON produces for it. -/
def parseValue (v : Str) : Except Str JVal :=
  match v with
  | '"' :: rest =>
      (match jsonStrAux (rest.length + 1) rest with
       | .ok (s, r) => if trimL r = [] then .ok (.str s) else .error perr
       | .error e => .error e)
  | _ =>
    if v = txt "\x7b\x7d" then .ok (.obj []) else
    if v = txt "[]" then .ok (.arr []) else
    if v = txt "true" then .ok (.boolean true) else
    if v = txt "false" then .ok (.boolean false) else
    if v = txt "null" || v = txt "~" then .ok .null else
    if v ≠ [] && v.all Char.isDigit then .ok (.num (natOfDigits v : Int)) else
    .ok (.str v)

/-- Parse a block mapping from lines at exactly the given indentation:
the parsed fields in text order, and the lines that sit at a shallower
indentation (returned to the caller). A line without a colon, or at an
unexpected deeper indentation, is a parse error, as the YAML grammar
rejects a scalar line mixed into a mapping. -/
def parseBlock : Nat → Nat → List Str → Except Str (Doc × List Str)
  | 0, _, _ => .error perr
  | _ + 1, _, [] => .ok ([], [])
  | fuel + 1, ind, l :: rest =>
      let sp := leadSpaces l
      if sp < ind then .ok ([], l :: rest)
      else if ind < sp then .error perr
      else
        match splitColon (l.drop ind) with
        | none => .error perr
        | some (key, after) =>
          if key = [] then .error perr
          else
            match after with
            | [] =>
              (match parseBlock fuel (ind + 2) rest with
               | .error e => .error e
               | .ok (sub, rest2) =>
                 match parseBlock fuel ind rest2 with
                 | .error e => .error e
                 | .ok (sibs, rest3) =>
                   .ok ((key, if sub.isEmpty then JVal.null else JVal.obj sub) :: sibs, rest3))
            | ' ' :: vtxt =>
              (match parseValue (trimStr vtxt) with
               | .error e => .error e
               | .ok v =>
                 match parseBlock fuel ind rest with
                 | .error e => .error e
                 | .ok (sibs, rest2) => .ok ((key, v) :: sibs, rest2))
            | _ => .error perr

/-- The concrete model of `protojson.Unmarshal(yaml.YAMLToJSON(text))`
into a `structpb.Struct`: whitespace-only text decodes to YAML null,
which protojson rejects ("cannot parse JSON"); a leading `{` is a flow
object; anything else must be a block mapping; and any non-object
result is rejected by protojson. -/
def modelDec (s : Str) : Except Str Doc :=
  let t := trimStr s
  if t = [] then .error perr
  else
    match t with
    | '{' :: _ =>
        (match parseJVal (t.length + 1) t with
         | .error e => .error e
         | .ok (v, r) =>
           if trimL r = [] then
             match v with
             | .obj fs => .ok fs
             | _ => .error perr
           else .error perr)
    | _ =>
        (match parseBlock (s.length + 1) 0 ((splitLines s).filter (fun l => trimStr l ≠ [])) with
         | .error e => .error e
         | .ok (d, rest) => if rest = [] then .ok d else .error perr)

/-!
The Error-Salvage Extractor. The current revision's implementation
(`extractJSONFromAgentError`) is not among the repository files here —
only its test (src/unnamed/part_005, TestExtractJSONFromAgentError).
The definitions below are modelled from the spec (sections 4.4 step 2,
4.5 and 6) and checked against that test's cases.
-/

/-- Whether `pat` is a prefix of `s` (Go `strings.HasPrefix`). -/
def startsWith : Str → Str → Bool
  | [], _ => true
  | _ :: _, [] => false
  | p :: ps, c :: cs => p == c && startsWith ps cs

/-- Whether `pat` occurs anywhere in `s` (Go `strings.Contains`). -/
def hasSeq (pat : Str) : Str → Bool
  | [] => startsWith pat []
  | s@(_ :: rest) => startsWith pat s || hasSeq pat rest

/-- The text after the first occurrence of `pat` in `s`, if any
(Go `strings.Index` plus slicing). -/
def afterSeq (pat : Str) : Str → Option Str
  | [] => if startsWith pat [] then some [] else none
  | s@(_ :: rest) =>
      if startsWith pat s then some (s.drop pat.length) else afterSeq pat rest

/-- Whether `pat` is a suffix of `s` (Go `strings.HasSuffix`). -/
def endsWithSeq (pat s : Str) : Bool := startsWith pat.reverse s.reverse

/-- Drop the optional `json` or `yaml` language tag right after an
opening fence. -/
def dropTag (s : Str) : Str :=
  if startsWith (txt "json") s then s.drop 4
  else if startsWith (txt "yaml") s then s.drop 4
  else s

/-- Modelled from the spec: the Unfence step (section 4.4 step 2, fence
syntax of section 6). If the text opens with a triple-backtick fence
(optionally tagged `json` or `yaml`) and closes with one, strip the
fence markers and the tag, leaving the interior; otherwise leave the
text unchanged. -/
def unfence (s : Str) : Str :=
  if startsWith (txt "```") s && endsWithSeq (txt "```") s && 6 ≤ s.length then
    dropTag ((s.drop 3).take ((s.drop 3).length - 3))
  else s

/-- The marker substring the Error-Salvage Extractor recognizes
(section 6 of the spec; the string the test cases carry). -/
def agentMarker : Str := txt "unable to parse agent output:"

/-- Modelled from the spec: `extractJSONFromAgentError` (section 4.5),
whose implementation is not among the repository files here, checked
against its test TestExtractJSONFromAgentError. A nil error or a
message without the marker yields ("", false); otherwise the text
after the first marker occurrence, trimmed, unfenced and trimmed
again, with a success flag. -/
def extractJSONFromAgentError : Option Str → Str × Bool
  | none => ([], false)
  | some m =>
      match afterSeq agentMarker m with
      | none => ([], false)
      | some rest => (trimStr (unfence (trimStr rest)), true)

/-!
Helper lemmas: association lists, the identity marker, and the
behavior of the separator split. None of these is a claim theorem.
-/

theorem lookupA_putA_self {α : Type} (m : List (Str × α)) (k : Str) (v : α) :
    lookupA (putA m k v) k = some v := by
  induction m with
  | nil => simp [putA, lookupA]
  | cons p rest ih =>
    by_cases h : p.1 = k <;> simp [putA, lookupA, h, ih]

theorem putA_of_lookup_none {α : Type} (m : List (Str × α)) (k : Str) (v : α)
    (h : lookupA m k = none) : putA m k v = m ++ [(k, v)] := by
  induction m with
  | nil => simp [putA]
  | cons p rest ih =>
    by_cases hk : p.1 = k
    · simp [lookupA, hk] at h
    · simp [lookupA, hk] at h
      simp [putA, hk, ih h]

theorem lookupA_append {α : Type} (m m' : List (Str × α)) (k : Str)
    (h : lookupA m k = none) : lookupA (m ++ m') k = lookupA m' k := by
  induction m with
  | nil => simp
  | cons p rest ih =>
    by_cases hk : p.1 = k
    · simp [lookupA, hk] at h
    · simp [lookupA, hk] at h ⊢
      exact ih h

theorem getName_setName (d : Doc) (k : Str) : getName (setName d k) = k := by
  simp [getName, setName, lookupA_putA_self, gjsonStr]

theorem splitDashes_ne_nil (s : Str) : splitDashes s ≠ [] := by
  induction s using splitDashes.induct with
  | case1 rest ih => simp [splitDashes.eq_1]
  | case2 c rest h ih =>
    rw [splitDashes.eq_2 c rest h]
    cases hs : splitDashes rest with
    | nil => exact absurd hs ih
    | cons a t => simp [List.modifyHead]
  | case3 => simp [splitDashes.eq_3]

theorem hasTriple_cons (c : Char) (rest : Str) (h : hasTriple rest = true) :
    hasTriple (c :: rest) = true := by
  by_cases hc : ∀ r', c = '-' → rest = '-' :: '-' :: r' → False
  · rw [hasTriple.eq_2 c rest hc]; exact h
  · push_neg at hc
    obtain ⟨r', hc1, hc2, -⟩ := hc
    subst hc1; subst hc2; rfl

theorem hasTriple_append (a b : Str) (h : hasTriple a = true) :
    hasTriple (a ++ b) = true := by
  induction a using hasTriple.induct with
  | case1 rest => rfl
  | case2 c rest hcond ih =>
    rw [hasTriple.eq_2 c rest hcond] at h
    by_cases hc2 : ∀ r', c = '-' → rest ++ b = '-' :: '-' :: r' → False
    · show hasTriple (c :: (rest ++ b)) = true
      rw [hasTriple.eq_2 c _ hc2]
      exact ih h
    · push_neg at hc2
      obtain ⟨r', hce, heq, -⟩ := hc2
      show hasTriple (c :: (rest ++ b)) = true
      rw [heq, hce]; rfl
  | case3 => simp [hasTriple] at h

theorem hasTriple_of_append_false (a b : Str) (h : hasTriple (a ++ b) = false) :
    hasTriple a = false := by
  by_contra hc
  rw [Bool.not_eq_false] at hc
  rw [hasTriple_append a b hc] at h
  exact Bool.noConfusion h

theorem splitDashes_no_triple (e : Str) (h : hasTriple e = false) :
    splitDashes e = [e] := by
  induction e using splitDashes.induct with
  | case1 rest ih => simp [hasTriple] at h
  | case2 c rest hcond ih =>
    rw [hasTriple.eq_2 c rest hcond] at h
    rw [splitDashes.eq_2 c rest hcond, ih h]
    rfl
  | case3 => rfl

theorem splitDashes_sep (e : Str) :
    ∀ r : Str, hasTriple (e ++ ['-', '-']) = false →
      splitDashes (e ++ '-' :: '-' :: '-' :: r) = e :: splitDashes r := by
  induction e using splitDashes.induct with
  | case1 rest ih =>
    intro r h
    simp [hasTriple] at h
  | case2 c rest hcond ih =>
    intro r h
    have hrest : hasTriple (rest ++ ['-', '-']) = false := by
      by_contra hcc
      rw [Bool.not_eq_false] at hcc
      have hh : hasTriple ((c :: rest) ++ ['-', '-']) = true := hasTriple_cons c _ hcc
      rw [hh] at h
      exact Bool.noConfusion h
    have hcond2 : ∀ r', c = '-' → rest ++ '-' :: '-' :: '-' :: r = '-' :: '-' :: r' → False := by
      intro r' hce hr
      rcases rest with _ | ⟨a, rest1⟩
      · subst hce; simp [hasTriple] at h
      · rcases rest1 with _ | ⟨b, rest2⟩
        · injection hr with h1 h2
          subst h1; subst hce; simp [hasTriple] at h
        · injection hr with h1 hr2
          injection hr2 with h2 hr3
          subst h1; subst h2
          exact hcond rest2 hce rfl
    show splitDashes (c :: (rest ++ '-' :: '-' :: '-' :: r)) = (c :: rest) :: splitDashes r
    rw [splitDashes.eq_2 c _ hcond2, ih r hrest]
    rfl
  | case3 =>
    intro r h
    exact splitDashes.eq_1 r

theorem splitDashes_chain :
    ∀ (segs : List Str) (e : Str),
      hasTriple (e ++ ['-', '-']) = false →
      (∀ x ∈ segs, hasTriple (x ++ ['-', '-']) = false) →
      splitDashes (e ++ (segs.map (fun x => '-' :: '-' :: '-' :: x)).flatten) = e :: segs := by
  intro segs
  induction segs with
  | nil =>
    intro e he _
    simp only [List.map_nil, List.flatten_nil, List.append_nil]
    exact splitDashes_no_triple e (hasTriple_of_append_false e _ he)
  | cons x rest ih =>
    intro e he hall
    have hx : hasTriple (x ++ ['-', '-']) = false := hall x (List.mem_cons_self x rest)
    have hrest : ∀ y ∈ rest, hasTriple (y ++ ['-', '-']) = false :=
      fun y hy => hall y (List.mem_cons_of_mem x hy)
    have step := splitDashes_sep e (x ++ (rest.map (fun y => '-' :: '-' :: '-' :: y)).flatten) he
    simp only [List.map_cons, List.flatten_cons]
    rw [show e ++ (('-' :: '-' :: '-' :: x) ++ (rest.map (fun y => '-' :: '-' :: '-' :: y)).flatten)
          = e ++ '-' :: '-' :: '-' :: (x ++ (rest.map (fun y => '-' :: '-' :: '-' :: y)).flatten) by simp]
    rw [step, ih x hx hrest]

theorem splitDashes_headD_append (s : Str) :
    ∃ t, (splitDashes s).headD [] ++ t = s := by
  induction s using splitDashes.induct with
  | case1 rest ih => exact ⟨'-' :: '-' :: '-' :: rest, rfl⟩
  | case2 c rest hcond ih =>
    obtain ⟨t, ht⟩ := ih
    rw [splitDashes.eq_2 c rest hcond]
    obtain ⟨a, l, hl⟩ : ∃ a l, splitDashes rest = a :: l := by
      cases hs : splitDashes rest with
      | nil => exact absurd hs (splitDashes_ne_nil rest)
      | cons a l => exact ⟨a, l, rfl⟩
    rw [hl] at ht ⊢
    simp only [List.headD_cons, List.modifyHead_cons] at ht ⊢
    exact ⟨t, by rw [List.cons_append, ht]⟩
  | case3 => exact ⟨[], rfl⟩

theorem splitDashes_no_triple_mem (s : Str) :
    ∀ e ∈ splitDashes s, hasTriple e = false := by
  induction s using splitDashes.induct with
  | case1 rest ih =>
    intro e he
    rw [splitDashes.eq_1] at he
    rcases List.mem_cons.mp he with rfl | hmem
    · rfl
    · exact ih e hmem
  | case2 c rest hcond ih =>
    intro e he
    rw [splitDashes.eq_2 c rest hcond] at he
    obtain ⟨a, l, hl⟩ : ∃ a l, splitDashes rest = a :: l := by
      cases hs : splitDashes rest with
      | nil => exact absurd hs (splitDashes_ne_nil rest)
      | cons a l => exact ⟨a, l, rfl⟩
    rw [hl] at he
    simp only [List.modifyHead_cons] at he
    rcases List.mem_cons.mp he with rfl | hmem
    · have ha : hasTriple a = false := ih a (by rw [hl]; exact List.mem_cons_self a l)
      by_cases h3 : ∀ r', c = '-' → a = '-' :: '-' :: r' → False
      · rw [hasTriple.eq_2 c a h3]; exact ha
      · push_neg at h3
        obtain ⟨r', hce, ha2, -⟩ := h3
        exfalso
        obtain ⟨t, ht⟩ := splitDashes_headD_append rest
        rw [hl] at ht
        simp only [List.headD_cons] at ht
        exact hcond (r' ++ t) hce (by rw [← ht, ha2]; simp)
    · exact ih e (by rw [hl]; exact List.mem_cons_of_mem a hmem)
  | case3 =>
    intro e he
    simp only [splitDashes.eq_3, List.mem_singleton] at he
    subst he; rfl

theorem joinSep_splitDashes (s : Str) : joinSep (splitDashes s) = s := by
  induction s using splitDashes.induct with
  | case1 rest ih =>
    rw [splitDashes.eq_1]
    obtain ⟨a, l, hl⟩ : ∃ a l, splitDashes rest = a :: l := by
      cases hs : splitDashes rest with
      | nil => exact absurd hs (splitDashes_ne_nil rest)
      | cons a l => exact ⟨a, l, rfl⟩
    rw [hl] at ih ⊢
    show ([] : Str) ++ '-' :: '-' :: '-' :: joinSep (a :: l) = '-' :: '-' :: '-' :: rest
    rw [ih]; rfl
  | case2 c rest hcond ih =>
    rw [splitDashes.eq_2 c rest hcond]
    obtain ⟨a, l, hl⟩ : ∃ a l, splitDashes rest = a :: l := by
      cases hs : splitDashes rest with
      | nil => exact absurd hs (splitDashes_ne_nil rest)
      | cons a l => exact ⟨a, l, rfl⟩
    rw [hl] at ih ⊢
    simp only [List.modifyHead_cons]
    cases l with
    | nil =>
      show c :: a = c :: rest
      have : joinSep [a] = rest := ih
      simp only [joinSep] at this
      rw [this]
    | cons b t =>
      show (c :: a) ++ '-' :: '-' :: '-' :: joinSep (b :: t) = c :: rest
      have : a ++ '-' :: '-' :: '-' :: joinSep (b :: t) = rest := ih
      rw [List.cons_append, this]
  | case3 => rfl

theorem toOption_ok {e a : Type} (x : a) : (Except.ok x : Except e a).toOption = some x := rfl

theorem toOption_error {e a : Type} (x : e) : (Except.error x : Except e a).toOption = none := rfl

theorem foldlM_resolveStep_isOk (dec : Str → Except Str Doc) :
    ∀ (segs : List Str) (acc : List (Str × Doc)),
      (segs.foldlM (resolveStep dec) acc).toOption.isSome =
        segs.all (fun e => decide (e = []) || (dec e).toOption.isSome) := by
  intro segs
  induction segs with
  | nil => intro acc; rfl
  | cons e rest ih =>
    intro acc
    rw [List.foldlM_cons, List.all_cons]
    by_cases he : e = []
    · subst he
      simp only [resolveStep, if_pos rfl]
      show (rest.foldlM (resolveStep dec) acc).toOption.isSome = _
      simp [ih]
    · cases hd : dec e with
      | error err =>
        simp only [resolveStep, if_neg he, hd]
        have hb : (Except.error err >>= fun a =>
            List.foldlM (resolveStep dec) a rest : Except Str (List (Str × Doc))) = .error err := rfl
        rw [hb]
        simp [he, hd, toOption_error]
      | ok d =>
        simp only [resolveStep, if_neg he, hd]
        have hb : (Except.ok (putA acc (getName d) d) >>= fun a =>
            List.foldlM (resolveStep dec) a rest : Except Str (List (Str × Doc))) =
            List.foldlM (resolveStep dec) (putA acc (getName d) d) rest := rfl
        rw [hb]
        simp [he, hd, ih, toOption_ok]

theorem foldlM_resolveStep_docs (dec : Str → Except Str Doc)
    (seg : Str → Str) (doc : Str → Doc) :
    ∀ (names : List Str) (acc : List (Str × Doc)),
      (∀ n ∈ names, seg n ≠ [] ∧ dec (seg n) = .ok (doc n) ∧ getName (doc n) = n) →
      (names.map seg).foldlM (resolveStep dec) acc =
        .ok (names.foldl (fun m n => putA m n (doc n)) acc) := by
  intro names
  induction names with
  | nil => intro acc _; rfl
  | cons n rest ih =>
    intro acc hall
    obtain ⟨hne, hdec, hname⟩ := hall n (List.mem_cons_self n rest)
    rw [List.map_cons, List.foldlM_cons, List.foldl_cons]
    simp only [resolveStep, if_neg hne, hdec, hname]
    have hb : (Except.ok (putA acc n (doc n)) >>= fun a =>
        List.foldlM (resolveStep dec) a (List.map seg rest) : Except Str (List (Str × Doc))) =
        List.foldlM (resolveStep dec) (putA acc n (doc n)) (List.map seg rest) := rfl
    rw [hb]
    exact ih _ (fun m hm => hall m (List.mem_cons_of_mem n hm))

theorem foldl_putA_fresh {α : Type} (doc : Str → α) :
    ∀ (names : List Str) (acc : List (Str × α)),
      names.Nodup → (∀ n ∈ names, lookupA acc n = none) →
      names.foldl (fun m n => putA m n (doc n)) acc =
        acc ++ names.map (fun n => (n, doc n)) := by
  intro names
  induction names with
  | nil => intro acc _ _; simp
  | cons n rest ih =>
    intro acc hnd hfresh
    rw [List.nodup_cons] at hnd
    rw [List.foldl_cons, putA_of_lookup_none acc n (doc n) (hfresh n (List.mem_cons_self n rest))]
    rw [ih (acc ++ [(n, doc n)]) hnd.2 ?fresh]
    · simp
    case fresh =>
      intro m hm
      rw [lookupA_append _ _ _ (hfresh m (List.mem_cons_of_mem n hm))]
      have hne : n ≠ m := fun h => hnd.1 (h ▸ hm)
      simp [lookupA, hne]

theorem lookupA_eq_some_of_mem {α : Type} :
    ∀ (l : List (Str × α)) (k : Str) (v : α),
      (l.map Prod.fst).Nodup → (k, v) ∈ l → lookupA l k = some v := by
  intro l
  induction l with
  | nil => intro k v _ h; simp at h
  | cons p rest ih =>
    intro k v hnd hmem
    rw [List.map_cons, List.nodup_cons] at hnd
    rcases List.mem_cons.mp hmem with h | hm
    · rw [← h]
      simp [lookupA]
    · have hk : k ∈ rest.map Prod.fst := List.mem_map.mpr ⟨(k, v), hm, rfl⟩
      have hne : p.1 ≠ k := fun h => hnd.1 (h ▸ hk)
      simp [lookupA, hne, ih k v hnd.2 hm]

theorem lookupA_perm {α : Type} {l1 l2 : List (Str × α)} (hp : l1.Perm l2) :
    (l1.map Prod.fst).Nodup → ∀ k, lookupA l1 k = lookupA l2 k := by
  induction hp with
  | nil => intro _ k; rfl
  | cons x p ih =>
    intro hnd k
    rw [List.map_cons, List.nodup_cons] at hnd
    by_cases h : x.1 = k <;> simp [lookupA, h, ih hnd.2 k]
  | swap x y l =>
    intro hnd k
    simp only [List.map_cons, List.nodup_cons, List.mem_cons] at hnd
    have hxy : y.1 ≠ x.1 := fun h => hnd.1 (Or.inl h)
    by_cases hy : y.1 = k <;> by_cases hx : x.1 = k <;>
      simp [lookupA, hy, hx]
    exact absurd (hy.trans hx.symm) hxy
  | trans p q ihp ihq =>
    intro hnd k
    rw [ihp hnd k, ihq ((p.map (f := Prod.fst)).nodup hnd) k]

/-- C10: serialize (ComposedToYAML) applied to the empty ResourceSet
returns the empty string (and the Go error result is nil: the model is
total because no library call can fail on an empty input): the
serialized stream contains no separator and no documents. -/
theorem c10_serialize_empty (enc : Doc → Str) : ComposedToYAML enc [] = [] := rfl

/-- C8: resolving the single JSON object `{}` succeeds and yields a
ResourceSet with exactly one entry whose key is the empty string and
whose document is the empty document. -/
theorem c8_single_empty_object :
    ComposedFromYAML modelDec (txt "\x7b\x7d") = .ok [(([] : Str), ([] : Doc))] := rfl

/-- C5 (counterexample): the text `a: b---c` carries `---` only embedded
inside a line, yet the split divides it into two segments instead of
leaving it whole, so stream-splitting does not divide only at `---` on
its own line. -/
theorem c5_split_cex :
    splitDashes (txt "a: b---c") = [txt "a: b", txt "c"] ∧
      [txt "a: b", txt "c"] ≠ [txt "a: b---c"] := by
  constructor
  · rfl
  · decide

/-- C5 (amended): stream-splitting divides the reply at every
occurrence of the literal sequence `---`, wherever it stands (also
embedded inside a line): rejoining the segments with the separator
reconstructs the text exactly, and no segment contains `---`. -/
theorem c5_split_amended (y : Str) :
    joinSep (splitDashes y) = y ∧ ∀ e ∈ splitDashes y, hasTriple e = false :=
  ⟨joinSep_splitDashes y, splitDashes_no_triple_mem y⟩

/-- C2 (counterexample): in the stream `{}---{` the first segment
decodes successfully, yet resolution returns an error instead of a
ResourceSet holding the decoded segment: a failing segment is not
dropped. -/
theorem c2_fail_fast_cex :
    (modelDec (txt "\x7b\x7d")).toOption = some [] ∧
      (ComposedFromYAML modelDec (txt "\x7b\x7d---\x7b")).toOption = none :=
  ⟨rfl, rfl⟩

/-- C2 (amended): resolution succeeds exactly when every non-empty
segment of the split stream decodes; the first failing segment aborts
the pass with its error, regardless of how many other segments
decoded. -/
theorem c2_fail_fast_amended (dec : Str → Except Str Doc) (y : Str) :
    (ComposedFromYAML dec y).toOption.isSome =
      (splitDashes y).all (fun e => decide (e = []) || (dec e).toOption.isSome) :=
  foldlM_resolveStep_isOk dec (splitDashes y) []

/-- C4 (divergence witness): resolving the empty reply succeeds with an
empty ResourceSet for every codec (the `doc == ""` guard skips the one
empty segment), although the spec and TestResourceFrom/InvalidYAML
require failure; a whitespace-only non-empty reply does fail (its one
segment decodes to YAML null, which the document codec rejects). -/
theorem c4_empty_reply_divergence :
    (∀ dec : Str → Except Str Doc, ComposedFromYAML dec [] = .ok []) ∧
      (ComposedFromYAML modelDec (txt " ")).toOption = none ∧
      (ComposedFromYAML modelDec (txt "\n\n")).toOption = none :=
  ⟨fun _ => rfl, rfl, rfl⟩

/-- C3: serialize (ComposedToYAML) is deterministic: two ResourceSets
equal as mappings (permutations of one another with unique
identifiers) produce byte-identical output, because the identifiers
are emitted in lexicographically sorted order with their looked-up
documents. -/
theorem c3_serialize_deterministic (enc : Doc → Str) (cds1 cds2 : List (Str × Doc))
    (hperm : cds1.Perm cds2) (hnd : (cds1.map Prod.fst).Nodup) :
    ComposedToYAML enc cds1 = ComposedToYAML enc cds2 := by
  unfold ComposedToYAML
  have hkeys : (cds1.map Prod.fst).Perm (cds2.map Prod.fst) := hperm.map Prod.fst
  have hsorteq : List.insertionSort (fun a b => a ≤ b) (cds1.map Prod.fst) =
      List.insertionSort (fun a b => a ≤ b) (cds2.map Prod.fst) := by
    have hp : (List.insertionSort (fun a b => a ≤ b) (cds1.map Prod.fst)).Perm
        (List.insertionSort (fun a b => a ≤ b) (cds2.map Prod.fst)) :=
      ((List.perm_insertionSort _ _).trans hkeys).trans
        (List.perm_insertionSort _ _).symm
    have hs1 := List.sorted_insertionSort (fun a b : Str => a ≤ b) (cds1.map Prod.fst)
    have hs2 := List.sorted_insertionSort (fun a b : Str => a ≤ b) (cds2.map Prod.fst)
    exact List.eq_of_perm_of_sorted hp hs1 hs2
  rw [hsorteq]
  congr 1
  apply List.map_congr_left
  intro name _
  rw [lookupA_perm hperm hnd name]

/-- C3 (witness): two insertion orders of the same two-identifier set
serialize to the same bytes under the concrete model codec. -/
theorem c3_determinism_witness :
    ComposedToYAML modelEnc [(txt "b", ([] : Doc)), (txt "a", ([] : Doc))] =
      ComposedToYAML modelEnc [(txt "a", ([] : Doc)), (txt "b", ([] : Doc))] :=
  c3_serialize_deterministic modelEnc _ _
    (List.Perm.swap (txt "a", ([] : Doc)) (txt "b", ([] : Doc)) []) (by decide)

/-- C6: when two successfully decoded documents of one stream produce
the same identifier, the resolved ResourceSet holds exactly one entry
under it, equal to the later document (last-writer-wins). -/
theorem c6_last_writer_wins (dec : Str → Except Str Doc) (s1 s2 : Str) (d1 d2 : Doc) (x : Str)
    (h1 : s1 ≠ []) (h2 : s2 ≠ [])
    (hf1 : hasTriple (s1 ++ ['-', '-']) = false) (hf2 : hasTriple s2 = false)
    (hd1 : dec s1 = .ok d1) (hd2 : dec s2 = .ok d2)
    (hn1 : getName d1 = x) (hn2 : getName d2 = x) :
    ComposedFromYAML dec (s1 ++ '-' :: '-' :: '-' :: s2) = .ok [(x, d2)] := by
  unfold ComposedFromYAML
  rw [splitDashes_sep s1 s2 hf1, splitDashes_no_triple s2 hf2]
  simp only [List.foldlM_cons, List.foldlM_nil, resolveStep, if_neg h1, if_neg h2,
    hd1, hd2, hn1, hn2]
  have hb : (Except.ok [(x, d1)] >>= fun init =>
      (Except.ok (putA init x d2) : Except Str (List (Str × Doc))) >>= pure) =
      (Except.ok (putA [(x, d1)] x d2) : Except Str (List (Str × Doc))) := rfl
  simp only [putA, if_pos rfl] at hb ⊢
  rw [hb]
  simp

/-- C6 (witness): a concrete two-document stream whose documents both
carry identifier `x` resolves to one entry under `x` equal to the
second document. -/
theorem c6_last_writer_wins_witness :
    ComposedFromYAML modelDec
        (txt "metadata:\n  annotations:\n    upbound.io/name: x\nv: one\n" ++
          '-' :: '-' :: '-' :: txt "\nmetadata:\n  annotations:\n    upbound.io/name: x\nv: two\n") =
      .ok [(txt "x",
        [(txt "metadata", JVal.obj [(txt "annotations",
            JVal.obj [(txt "upbound.io/name", JVal.str (txt "x"))])]),
         (txt "v", JVal.str (txt "two"))])] :=
  c6_last_writer_wins modelDec _ _
    [(txt "metadata", JVal.obj [(txt "annotations",
        JVal.obj [(txt "upbound.io/name", JVal.str (txt "x"))])]),
     (txt "v", JVal.str (txt "one"))]
    [(txt "metadata", JVal.obj [(txt "annotations",
        JVal.obj [(txt "upbound.io/name", JVal.str (txt "x"))])]),
     (txt "v", JVal.str (txt "two"))]
    (txt "x") (by decide) (by decide) (by decide) (by decide) rfl rfl rfl rfl

/-- C7: the document serialize emits for identifier `k` carries the
identity marker `metadata.annotations.upbound\.io/name` equal to `k`
(overwriting whatever the annotation held), and that self-identifying
document is what the emitted stream contains for `k`. -/
theorem c7_identity_marker (enc : Doc → Str) (cds : List (Str × Doc)) (k : Str) (d : Doc)
    (hnd : (cds.map Prod.fst).Nodup) (hmem : (k, d) ∈ cds) :
    getName (setName d k) = k ∧
      ∃ u v, ComposedToYAML enc cds =
        u ++ ('-' :: '-' :: '-' :: '\n' :: enc (setName d k)) ++ v := by
  refine ⟨getName_setName d k, ?_⟩
  have hk : k ∈ cds.map Prod.fst := List.mem_map.mpr ⟨(k, d), hmem, rfl⟩
  have hk2 : k ∈ List.insertionSort (fun a b => a ≤ b) (cds.map Prod.fst) :=
    (List.perm_insertionSort (fun a b => a ≤ b) (cds.map Prod.fst)).mem_iff.mpr hk
  obtain ⟨l1, l2, hsplit⟩ := List.append_of_mem hk2
  have hlook : lookupA cds k = some d := lookupA_eq_some_of_mem cds k d hnd hmem
  unfold ComposedToYAML
  rw [hsplit, List.map_append, List.map_cons, List.flatten_append, List.flatten_cons, hlook]
  exact ⟨(l1.map fun name =>
      '-' :: '-' :: '-' :: '\n' :: enc (setName ((lookupA cds name).getD []) name)).flatten,
    (l2.map fun name =>
      '-' :: '-' :: '-' :: '\n' :: enc (setName ((lookupA cds name).getD []) name)).flatten,
    by simp⟩

/-- C7 (witness): serializing a one-entry set whose document carries a
stale identity marker emits the document re-annotated with its
identifier `x`. -/
theorem c7_identity_marker_witness :
    getName (setName [(txt "metadata", JVal.obj [(txt "annotations",
        JVal.obj [(txt "upbound.io/name", JVal.str (txt "stale"))])])] (txt "x")) = txt "x" ∧
      ∃ u v, ComposedToYAML modelEnc
          [(txt "x", [(txt "metadata", JVal.obj [(txt "annotations",
              JVal.obj [(txt "upbound.io/name", JVal.str (txt "stale"))])])])] =
        u ++ ('-' :: '-' :: '-' :: '\n' :: modelEnc (setName
          [(txt "metadata", JVal.obj [(txt "annotations",
              JVal.obj [(txt "upbound.io/name", JVal.str (txt "stale"))])])] (txt "x"))) ++ v :=
  c7_identity_marker modelEnc _ (txt "x")
    [(txt "metadata", JVal.obj [(txt "annotations",
        JVal.obj [(txt "upbound.io/name", JVal.str (txt "stale"))])])]
    (by decide) (List.mem_singleton.mpr rfl)

theorem afterSeq_isSome (pat : Str) : ∀ s : Str, (afterSeq pat s).isSome = hasSeq pat s := by
  intro s
  induction s with
  | nil => cases h : startsWith pat [] <;> simp [afterSeq, hasSeq, h]
  | cons c rest ih => cases h : startsWith pat (c :: rest) <;> simp [afterSeq, hasSeq, h, ih]

/-- C9: the Error-Salvage Extractor applied to the wrapped failure
message of the spec's scenario recovers the unfenced, trimmed payload
with a success flag; a fenced payload is unfenced; an unrelated
message and a nil error yield the empty string with a failure flag;
and in general the success flag reports exactly whether the marker
occurs anywhere in the message. -/
theorem c9_error_salvage :
    extractJSONFromAgentError
        (some (txt "failed to run: unable to parse agent output: \x7b\"test\": true\x7d")) =
      (txt "\x7b\"test\": true\x7d", true) ∧
    extractJSONFromAgentError
        (some (txt "unable to parse agent output: ```json\n\x7b\"apiVersion\": \"v1\"\x7d\n```")) =
      (txt "\x7b\"apiVersion\": \"v1\"\x7d", true) ∧
    extractJSONFromAgentError (some (txt "some other error")) = (txt "", false) ∧
    extractJSONFromAgentError none = (txt "", false) ∧
    ∀ m : Str, (extractJSONFromAgentError (some m)).2 = hasSeq agentMarker m := by
  refine ⟨rfl, rfl, rfl, rfl, ?_⟩
  intro m
  unfold extractJSONFromAgentError
  rw [← afterSeq_isSome]
  cases h : afterSeq agentMarker m with
  | none => simp [h]
  | some rest => simp [h]

/-- C1 (amended): for every ResourceSet with unique identifiers whose
per-document serialized text neither contains the separator `---` nor
abuts one (and which the document codec round-trips), resolving the
serialized stream succeeds and yields exactly the identifiers of the
set (in sorted order), each mapped to its document with the identity
marker set to its identifier. The separator-freedom hypothesis is
forced by the counterexample: a document whose encoded text contains
`---` is torn apart by the split. -/
theorem c1_round_trip_amended (enc : Doc → Str) (dec : Str → Except Str Doc)
    (cds : List (Str × Doc))
    (hnd : (cds.map Prod.fst).Nodup)
    (_hne : ∀ p ∈ cds, p.1 ≠ ([] : Str))
    (hsep : ∀ p ∈ cds, hasTriple (('\n' :: enc (setName p.2 p.1)) ++ ['-', '-']) = false)
    (hrt : ∀ p ∈ cds, dec ('\n' :: enc (setName p.2 p.1)) = .ok (setName p.2 p.1)) :
    ComposedFromYAML dec (ComposedToYAML enc cds) =
      .ok ((List.insertionSort (fun a b => a ≤ b) (cds.map Prod.fst)).map
        (fun n => (n, setName ((lookupA cds n).getD []) n))) := by
  unfold ComposedFromYAML ComposedToYAML
  set keys := List.insertionSort (fun a b => a ≤ b) (cds.map Prod.fst) with hkeysdef
  have hkperm : keys.Perm (cds.map Prod.fst) := List.perm_insertionSort _ _
  have hknd : keys.Nodup := hkperm.nodup_iff.mpr hnd
  have hmempair : ∀ n ∈ keys, (n, (lookupA cds n).getD []) ∈ cds := by
    intro n hn
    have h1 : n ∈ cds.map Prod.fst := hkperm.subset hn
    obtain ⟨p, hp, hpe⟩ := List.mem_map.mp h1
    have hl : lookupA cds p.1 = some p.2 := lookupA_eq_some_of_mem cds p.1 p.2 hnd hp
    rw [← hpe, hl]
    simpa using hp
  have hshape : (keys.map fun name =>
        '-' :: '-' :: '-' :: '\n' :: enc (setName ((lookupA cds name).getD []) name))
      = (keys.map fun n => '\n' :: enc (setName ((lookupA cds n).getD []) n)).map
          (fun x => '-' :: '-' :: '-' :: x) := by
    rw [List.map_map]; rfl
  rw [hshape]
  have hall : ∀ x ∈ keys.map fun n => '\n' :: enc (setName ((lookupA cds n).getD []) n),
      hasTriple (x ++ ['-', '-']) = false := by
    intro x hx
    obtain ⟨n, hn, rfl⟩ := List.mem_map.mp hx
    exact hsep _ (hmempair n hn)
  have hchain := splitDashes_chain
    (keys.map fun n => '\n' :: enc (setName ((lookupA cds n).getD []) n)) [] rfl hall
  rw [List.nil_append] at hchain
  rw [hchain, List.foldlM_cons]
  have hstep : resolveStep dec [] [] = .ok [] := rfl
  rw [hstep]
  have hdocs := foldlM_resolveStep_docs dec
    (fun n => '\n' :: enc (setName ((lookupA cds n).getD []) n))
    (fun n => setName ((lookupA cds n).getD []) n)
    keys []
    (fun n hn => ⟨by simp, hrt _ (hmempair n hn), getName_setName _ _⟩)
  have hbind : (Except.ok ([] : List (Str × Doc)) >>= fun b =>
      List.foldlM (resolveStep dec) b
        (keys.map fun n => '\n' :: enc (setName ((lookupA cds n).getD []) n))) =
      List.foldlM (resolveStep dec) []
        (keys.map fun n => '\n' :: enc (setName ((lookupA cds n).getD []) n)) := rfl
  rw [hbind, hdocs, foldl_putA_fresh _ keys [] hknd (fun n _ => rfl)]
  simp

/-- C1 (counterexample): the one-entry ResourceSet `x ↦ {a: "b---c"}`
has unique, non-empty identifiers, yet resolving its serialization
fails: the string value `b---c` places `---` inside the emitted YAML
line `a: b---c`, the split tears the stream there, and the trailing
fragment does not decode. -/
theorem c1_round_trip_cex :
    (([(txt "x", [(txt "a", JVal.str (txt "b---c"))])] : List (Str × Doc)).map Prod.fst).Nodup ∧
      (∀ p ∈ ([(txt "x", [(txt "a", JVal.str (txt "b---c"))])] : List (Str × Doc)),
        p.1 ≠ ([] : Str)) ∧
      (ComposedFromYAML modelDec
        (ComposedToYAML modelEnc [(txt "x", [(txt "a", JVal.str (txt "b---c"))])])).toOption
        = none :=
  ⟨by decide, by decide, rfl⟩

/-- C1 (witness): a concrete two-entry ResourceSet whose encoded
documents are separator-free round-trips through serialize and
resolve, reproducing both identifiers in sorted order with the
identity marker set. -/
theorem c1_round_trip_witness :
    ComposedFromYAML modelDec (ComposedToYAML modelEnc
        [(txt "y", [(txt "a", JVal.str (txt "c"))]), (txt "x", [(txt "a", JVal.str (txt "b"))])]) =
      .ok ((List.insertionSort (fun a b => a ≤ b)
          (([(txt "y", [(txt "a", JVal.str (txt "c"))]),
             (txt "x", [(txt "a", JVal.str (txt "b"))])] : List (Str × Doc)).map Prod.fst)).map
        (fun n => (n, setName ((lookupA
          [(txt "y", [(txt "a", JVal.str (txt "c"))]),
           (txt "x", [(txt "a", JVal.str (txt "b"))])] n).getD []) n))) :=
  c1_round_trip_amended modelEnc modelDec
    [(txt "y", [(txt "a", JVal.str (txt "c"))]), (txt "x", [(txt "a", JVal.str (txt "b"))])]
    (by decide) (by decide) (by decide)
    (by
      intro p hp
      rcases List.mem_cons.mp hp with h | hp2
      · subst h; rfl
      · rcases List.mem_cons.mp hp2 with h | hp3
        · subst h; rfl
        · cases hp3)
